import Mathlib

/-!
Verification of the annotation-resolution engine of the `mapgen` repository
(packages `internal/model`, `internal/processor`, `internal/preprocessor`
and the mapping pipeline of `cmd/mapgen/main.go`).

The Go source is embedded shallowly: each Go function becomes a Lean
function over explicit data, machine maps become association lists, and
fallible code returns `Except`.  Positions of AST nodes become `Nat` order
keys (Go `token.Pos` is an integer offset).  `strings.EqualFold` and
`strings.ToLower` are modelled on their ASCII behaviour, which coincides
with Go on the ASCII identifiers this tool manipulates.
-/

namespace Mapgen

/-! ## Data model (`internal/model/model.go`) -/

/-- `model.FieldMappingRule`: a single resolved field mapping rule. -/
structure FieldMappingRule where
  From : String
  To : String
  Ignore : Bool
  Using : String
  deriving DecidableEq, Repr

/-- `model.MapperMethod`: a method of a mapper with its resolved rules. -/
structure MapperMethod where
  Name : String
  SourceType : String
  TargetType : String
  Mappings : List FieldMappingRule
  deriving DecidableEq, Repr

/-- `model.MapperDefinition`: one mapper contract ready for emission. -/
structure MapperDefinition where
  Name : String
  ImplName : String
  Package : String
  Methods : List MapperMethod
  TargetFile : String
  Imports : List String
  deriving DecidableEq, Repr

/-- `model.MappingDefinition`: the processed form of one mapping directive.
`MapperName`/`MethodName` are the symbolic-reference fields read by the
binder in `main.go`. -/
structure MappingDefinition where
  From : String
  To : String
  Using : String
  Ignore : Bool
  MapperName : String
  MethodName : String
  deriving DecidableEq, Repr

/-! ## AST shapes consumed by the engine (from `go/ast`)

Only the parts the engine inspects are modelled: type expressions as read
by `exprToString`, interface bodies as read by `MapperProcessor.Process`,
and top-level declarations with their source positions as read by
`Preprocessor.findAssociatedNode`. -/

/-- A Go type expression, covering the cases of `exprToString`. -/
inductive TypeExpr where
  | ident (name : String)
  | selector (x : TypeExpr) (sel : String)
  | star (x : TypeExpr)
  | array (elt : TypeExpr)
  | mapT (key val : TypeExpr)
  | otherExpr (goTypeName : String)
  deriving DecidableEq, Repr

/-- An `ast.FuncType` as read by the mapper processor: the types of the
parameter fields and of the result fields (empty list models both a `nil`
and an empty `Results`, which the Go code treats identically). -/
structure FuncSig where
  params : List TypeExpr
  results : List TypeExpr
  deriving DecidableEq, Repr

/-- One entry of an `ast.InterfaceType.Methods.List`: either a method
(field with a `FuncType`) or an embedded interface (skipped by the code).
`pos` is the entry's source position. -/
inductive IfaceEntry where
  | method (pos : Nat) (names : List String) (sig : FuncSig)
  | embedded (pos : Nat)
  deriving DecidableEq, Repr

/-- The type expression of an `ast.TypeSpec`, as far as the mapper
processor distinguishes it: an interface type, or anything else. -/
inductive TypeSpecBody where
  | iface (entries : List IfaceEntry)
  | nonInterface
  deriving DecidableEq, Repr

/-- An `ast.TypeSpec`. -/
structure TypeSpec where
  name : String
  body : TypeSpecBody
  deriving DecidableEq, Repr

/-- A spec inside an `ast.GenDecl`. -/
inductive Spec where
  | typeSpec (ts : TypeSpec)
  | otherSpec
  deriving DecidableEq, Repr

/-- A top-level declaration of an `ast.File` with its start position. -/
inductive Decl where
  | genDecl (pos : Nat) (specs : List Spec)
  | funcDecl (pos : Nat) (name : String)
  | otherDecl (pos : Nat)
  deriving DecidableEq, Repr

/-- The `ast.Node` values `findAssociatedNode` can return. -/
inductive AstNode where
  | typeSpec (ts : TypeSpec)
  | genDecl (pos : Nat) (specs : List Spec)
  | funcDecl (pos : Nat) (name : String)
  | otherDecl (pos : Nat)
  deriving DecidableEq, Repr

/-- `model.Directive` (field `Type` of the Go struct is rendered `dirType`
because `Type` is reserved in Lean).  `Node` is `none` while unset, the
model of the Go `nil` interface value. -/
structure Directive where
  dirType : String
  Metadata : List (String × String)
  Node : Option AstNode
  deriving DecidableEq, Repr

/-- An `ast.Comment` with its start position (`comment.Pos()`). -/
structure Comment where
  pos : Nat
  text : String
  deriving DecidableEq, Repr

/-- An `ast.File`: top-level declarations and comment groups, each group a
list of comments. -/
structure File where
  decls : List Decl
  comments : List (List Comment)
  deriving DecidableEq, Repr

/-- Go map lookup `m[k]` with its `ok` bit: the first binding of `k`. -/
def lookupMeta (m : List (String × String)) (k : String) : Option String :=
  (m.find? (fun p => p.1 == k)).map (·.2)

/-- Start position of a declaration (`decl.Pos()`). -/
def declPos : Decl → Nat
  | .genDecl p _ => p
  | .funcDecl p _ => p
  | .otherDecl p => p

/-! ## String helpers of `internal/processor/processor.go` -/

/-- `exprToString` (processor.go): renders a type expression; the default
case of the Go switch prints the dynamic type name via `%T`. -/
def exprToString : TypeExpr → String
  | .ident name => name
  | .selector x sel => exprToString x ++ "." ++ sel
  | .star x => "*" ++ exprToString x
  | .array elt => "[]" ++ exprToString elt
  | .mapT key val => "map[" ++ exprToString key ++ "]" ++ exprToString val
  | .otherExpr goTypeName => goTypeName

/-- `strings.Split` on a single separator character, on char lists. -/
def splitOnChar (sep : Char) : List Char → List (List Char)
  | [] => [[]]
  | c :: cs =>
    if c == sep then [] :: splitOnChar sep cs
    else
      match splitOnChar sep cs with
      | [] => [[c]]
      | p :: ps => (c :: p) :: ps

/-- `extractPackage` (processor.go): strips one leading `*`
(`strings.TrimPrefix`), splits on `.`, and returns the first part when
there are at least two parts, else `""`. -/
def extractPackage (typeStr : String) : String :=
  let cs : List Char :=
    match typeStr.data with
    | '*' :: rest => rest
    | cs => cs
  match splitOnChar '.' cs with
  | p :: _ :: _ => String.mk p
  | _ => ""

/-- ASCII model of `strings.ToLower`: character-wise lower-casing
(`Char.toLower` lowers exactly the ASCII range). -/
def asciiToLower (s : String) : String :=
  String.mk (s.data.map Char.toLower)

/-- ASCII model of `strings.EqualFold`. -/
def equalFold (a b : String) : Bool :=
  asciiToLower a == asciiToLower b

/-! ## `MapperProcessor.Process` and `MappingProcessor.Process`
(`internal/processor/processor.go`) -/

/-- Builds one `model.MapperMethod` from an interface method entry:
name from `Names[0]` (else `""`), source type from the first parameter,
target type from the first result (else `""`), and no mappings yet. -/
def methodOfSig (names : List String) (sig : FuncSig) : MapperMethod :=
  { Name := names.headD ""
    SourceType := match sig.params with
      | [] => ""
      | t :: _ => exprToString t
    TargetType := match sig.results with
      | [] => ""
      | t :: _ => exprToString t
    Mappings := [] }

/-- The import-registration step of `MapperProcessor.Process`: append a
package name unless it is empty or already present. -/
def addImport (imps : List String) (p : String) : List String :=
  if p = "" then imps
  else if p ∈ imps then imps
  else imps ++ [p]

/-- The method-collection half of the interface loop of
`MapperProcessor.Process`: one `MapperMethod` per `FuncType` entry,
embedded entries skipped. -/
def ifaceMethods : List IfaceEntry → List MapperMethod
  | [] => []
  | .embedded _ :: es => ifaceMethods es
  | .method _ names sig :: es => methodOfSig names sig :: ifaceMethods es

/-- The import-collection half of the same loop: for each method, the
package of the source type then of the target type is registered. -/
def ifaceImports (acc : List String) : List IfaceEntry → List String
  | [] => acc
  | .embedded _ :: es => ifaceImports acc es
  | .method _ names sig :: es =>
    let m := methodOfSig names sig
    ifaceImports
      (addImport (addImport acc (extractPackage m.SourceType))
        (extractPackage m.TargetType)) es

/-- Go type name of a directive node, for the `%T` verb in the error
message of `MapperProcessor.Process`. -/
def nodeGoType : Option AstNode → String
  | none => "<nil>"
  | some (.typeSpec _) => "*ast.TypeSpec"
  | some (.genDecl _ _) => "*ast.GenDecl"
  | some (.funcDecl _ _) => "*ast.FuncDecl"
  | some (.otherDecl _) => "ast.Decl"

/-- The body of `MapperProcessor.Process` after the `TypeSpec` assertion
succeeded: reads `impl`, `target` and `package` metadata with their
defaults; builds one method per interface entry (registering type-package
imports), or for a non-interface type synthesizes the `ToDTO`/`ToEntity`
pair and appends `"dto"` to the imports. -/
def mapperProcessTS (d : Directive) (ts : TypeSpec) : MapperDefinition :=
  let implName0 := (lookupMeta d.Metadata "impl").getD ""
  let implName := if implName0 = "" then asciiToLower ts.name ++ "_mapper" else implName0
  let targetFile := (lookupMeta d.Metadata "target").getD ""
  let packageName := match lookupMeta d.Metadata "package" with
    | some file => file
    | none => "mapper"
  match ts.body with
  | .iface entries =>
    { Name := ""
      ImplName := implName
      Package := packageName
      TargetFile := targetFile
      Methods := ifaceMethods entries
      Imports := ifaceImports [] entries }
  | .nonInterface =>
    { Name := ""
      ImplName := implName
      Package := packageName
      TargetFile := targetFile
      Methods :=
        [ { Name := "ToDTO"
            SourceType := "*" ++ ts.name
            TargetType := "*dto." ++ ts.name ++ "DTO"
            Mappings := [] },
          { Name := "ToEntity"
            SourceType := "*dto." ++ ts.name ++ "DTO"
            TargetType := "*" ++ ts.name
            Mappings := [] } ]
      Imports := ["dto"] }

/-- `MapperProcessor.Process` (processor.go lines 77-195): the node type
assertion, then the definition construction of `mapperProcessTS`. -/
def mapperProcess (d : Directive) : Except String MapperDefinition :=
  match d.Node with
  | some (.typeSpec ts) => .ok (mapperProcessTS d ts)
  | n => .error ("mapper directive must be associated with a type specification, got "
      ++ nodeGoType n)

/-- `MappingProcessor.Process` (processor.go lines 260-282): copies the
`from`/`to`/`using` metadata values (Go zero value `""` when absent) and
sets `Ignore` when an `ignore` key is present, discarding its value.
`MapperName`/`MethodName` stay at their zero value: the processor never
populates them. -/
def mappingProcess (d : Directive) : MappingDefinition :=
  { From := (lookupMeta d.Metadata "from").getD ""
    To := (lookupMeta d.Metadata "to").getD ""
    Using := (lookupMeta d.Metadata "using").getD ""
    Ignore := (lookupMeta d.Metadata "ignore").isSome
    MapperName := ""
    MethodName := "" }

/-- `Registry.Process` on a mapping directive: the mapping processor is
registered and its `Process` always returns a `nil` error, so the
dispatch always succeeds. -/
def registryProcessMapping (d : Directive) : Except String MappingDefinition :=
  .ok (mappingProcess d)

/-! ## Directive extraction (`internal/preprocessor`, `src/unnamed/part_000`) -/

/-- RE2 `\w`. -/
def isWordChar (c : Char) : Bool :=
  c.isAlphanum || c == '_'

/-- RE2 `\s`. -/
def isSpaceChar (c : Char) : Bool :=
  c == ' ' || c == '\t' || c == '\n' || c == '\r' || c == '\x0B' || c == '\x0C'

/-- Match a literal character sequence, returning the remainder. -/
def matchLit : List Char → List Char → Option (List Char)
  | [], cs => some cs
  | _ :: _, [] => none
  | l :: ls, c :: cs => if c == l then matchLit ls cs else none

/-- Greedily match one or more characters satisfying `p`. -/
def matchPlus (p : Char → Bool) (cs : List Char) : Option (List Char) :=
  match cs.span p with
  | (taken, rest) => if taken.isEmpty then none else some rest

/-- One `\s+\w+=\w+` unit of the directive regex. -/
def matchPair (cs : List Char) : Option (List Char) :=
  (matchPlus isSpaceChar cs).bind fun cs1 =>
    (matchPlus isWordChar cs1).bind fun cs2 =>
      match cs2 with
      | '=' :: cs3 => matchPlus isWordChar cs3
      | _ => none

/-- Greedy `(?:\s+(\w+=\w+))*`. -/
def matchPairs (fuel : Nat) (cs : List Char) : List Char :=
  match fuel with
  | 0 => cs
  | fuel + 1 =>
    match matchPair cs with
    | some rest => matchPairs fuel rest
    | none => cs

/-- Attempt to match `\+mapgen:(\w+)(?:\s+(\w+=\w+))*` at the head of the
character list, returning the characters after the match. -/
def matchDirectiveAt (cs : List Char) : Option (List Char) :=
  (matchLit "+mapgen:".data cs).bind fun cs1 =>
    (matchPlus isWordChar cs1).map fun cs2 => matchPairs cs2.length cs2

/-- The directive record built inside the match loop of
`findDirectivesInComment`: the type and metadata are hard-coded by the
source (`Type: "mapper"`, `Metadata: {"impl": "user_mapper"}`),
independently of the matched text; the node is set later by `Process`. -/
def hardcodedDirective : Directive :=
  { dirType := "mapper"
    Metadata := [("impl", "user_mapper")]
    Node := none }

/-- The scan of `regexp.FindAllStringSubmatch` specialised to the
directive pattern: leftmost, non-overlapping matches; one directive built
per match.  `fuel` bounds the scan by the text length. -/
def buildDirectives : Nat → List Char → List Directive
  | 0, _ => []
  | _ + 1, [] => []
  | fuel + 1, c :: cs =>
    match matchDirectiveAt (c :: cs) with
    | some rest => hardcodedDirective :: buildDirectives fuel rest
    | none => buildDirectives fuel cs

/-- `Preprocessor.findDirectivesInComment` (part_000 lines 186-214). -/
def findDirectivesInComment (text : String) : List Directive :=
  buildDirectives text.data.length text.data

/-- Whether a spec is a `TypeSpec` (the type assertion in the GenDecl
branch of `findAssociatedNode`). -/
def isTypeSpecB : Spec → Bool
  | .typeSpec _ => true
  | .otherSpec => false

/-- The node returned for a declaration found after the comment: for a
`GenDecl` its first `TypeSpec` when present, else the `GenDecl` itself;
a `FuncDecl` or any other declaration is returned as is. -/
def nodeOfDecl : Decl → AstNode
  | .genDecl p specs =>
    match specs.find? isTypeSpecB with
    | some (.typeSpec ts) => .typeSpec ts
    | _ => .genDecl p specs
  | .funcDecl p name => .funcDecl p name
  | .otherDecl p => .otherDecl p

/-- `Preprocessor.findAssociatedNode` (part_000 lines 232-262): the first
top-level declaration whose position is strictly after the comment, or
`none` when no declaration follows. -/
def findAssociatedNode (f : File) (c : Comment) : Option AstNode :=
  (f.decls.find? (fun d => declPos d > c.pos)).map nodeOfDecl

/-- `Preprocessor.Process` (part_000 lines 153-175): for every comment of
every comment group, extract directives and keep each one whose
associated node exists, setting its `Node`; comments with no following
declaration contribute nothing. -/
def preprocess (f : File) : List Directive :=
  f.comments.foldl
    (fun acc group =>
      group.foldl
        (fun acc2 c =>
          (findDirectivesInComment c.text).foldl
            (fun acc3 d =>
              match findAssociatedNode f c with
              | some n => acc3 ++ [{ d with Node := some n }]
              | none => acc3)
            acc2)
        acc)
    []

/-! ## The mapping-directive binder (`src/unnamed/part_004`, main)

The mapping loop of `main` converts each `MappingDefinition` into a
`FieldMappingRule` and appends it to one method's `Mappings`, chosen by
the search of lines 157-216: by mapper name (case-insensitive), then by
method name across all mappers, then the first method of the first
mapper.  The index computation is `bindIndex`; the in-place `append` at
the chosen `(mapper, method)` pair is `appendRuleAt`. -/

/-- The `fieldMapping` conversion of the mapping loop. -/
def toFieldRule (md : MappingDefinition) : FieldMappingRule :=
  { From := md.From, To := md.To, Using := md.Using, Ignore := md.Ignore }

/-- Replace the `n`-th element of a list by `f` of it (in-place slice
update `l[n] = f(l[n])`); out of bounds leaves the list unchanged. -/
def listModify (f : α → α) : Nat → List α → List α
  | _, [] => []
  | 0, a :: as => f a :: as
  | n + 1, a :: as => a :: listModify f n as

/-- `mapperDefinitions[i].Methods[j].Mappings = append(..., r)`. -/
def appendRuleAt (defs : List MapperDefinition) (i j : Nat)
    (r : FieldMappingRule) : List MapperDefinition :=
  listModify
    (fun mp =>
      { mp with
        Methods :=
          listModify (fun m => { m with Mappings := m.Mappings ++ [r] }) j
            mp.Methods })
    i defs

/-- The inner method search `strings.EqualFold(method.Name, MethodName)`:
index of the first case-insensitive name match. -/
def findMethodIdx (name : String) : List MapperMethod → Option Nat
  | [] => none
  | m :: ms =>
    if equalFold m.Name name then some 0
    else (findMethodIdx name ms).map (· + 1)

/-- The first loop of the binder (`if mappingDef.MapperName != ""`):
scan for a mapper whose `ImplName` matches case-insensitively; inside a
match, bind to the named method when it exists, else to the mapper's
first method when it has one; a matched mapper with no methods leaves
`mapperFound` unset and the scan continues. -/
def bindByMapperName (mapperName methodName : String) :
    List MapperDefinition → Option (Nat × Nat)
  | [] => none
  | mp :: rest =>
    if equalFold mp.ImplName mapperName then
      match (if methodName ≠ "" then findMethodIdx methodName mp.Methods else none) with
      | some j => some (0, j)
      | none =>
        if mp.Methods.length > 0 then some (0, 0)
        else (bindByMapperName mapperName methodName rest).map (fun p => (p.1 + 1, p.2))
    else (bindByMapperName mapperName methodName rest).map (fun p => (p.1 + 1, p.2))

/-- The second loop of the binder (`if !mapperFound && MethodName != ""`):
first mapper containing a case-insensitive method-name match, with the
index of that method. -/
def bindByMethodName (methodName : String) :
    List MapperDefinition → Option (Nat × Nat)
  | [] => none
  | mp :: rest =>
    match findMethodIdx methodName mp.Methods with
    | some j => some (0, j)
    | none => (bindByMethodName methodName rest).map (fun p => (p.1 + 1, p.2))

/-- The full binder search order of part_004 lines 157-216: mapper name,
then method name, then the last-resort first method of the first mapper
(only when the first mapper has at least one method); `none` means the
directive is dropped. -/
def bindIndex (defs : List MapperDefinition) (md : MappingDefinition) :
    Option (Nat × Nat) :=
  match (if md.MapperName ≠ "" then bindByMapperName md.MapperName md.MethodName defs else none) with
  | some ij => some ij
  | none =>
    match (if md.MethodName ≠ "" then bindByMethodName md.MethodName defs else none) with
    | some ij => some ij
    | none =>
      match defs with
      | [] => none
      | mp :: _ => if mp.Methods.length > 0 then some (0, 0) else none

/-- One iteration of the mapping loop body: bind the converted rule at
the found indices, or leave the definitions unchanged. -/
def applyMapping (defs : List MapperDefinition) (md : MappingDefinition) :
    List MapperDefinition :=
  match bindIndex defs md with
  | some (i, j) => appendRuleAt defs i j (toFieldRule md)
  | none => defs

/-- The mapping-directive loop of `main` (part_004 lines 131-218):
processes each directive through the registry (which never fails for
mapping directives) and binds the result; the second component collects
the error messages printed by the `err != nil` branch — the only anomaly
reports this loop can emit. -/
def processMappings (defs : List MapperDefinition) :
    List Directive → List MapperDefinition × List String
  | [] => (defs, [])
  | d :: ds =>
    match registryProcessMapping d with
    | .ok md => processMappings (applyMapping defs md) ds
    | .error e =>
      let r := processMappings defs ds
      (r.1, e :: r.2)

/-- The mapper-directive loop of `main`: collect the definitions of the
directives the mapper processor accepts, in order, and the error messages
of the rejected ones (the loop `continue`s on error). -/
def processMapperDirectives : List Directive → List MapperDefinition × List String
  | [] => ([], [])
  | d :: ds =>
    let rest := processMapperDirectives ds
    match mapperProcess d with
    | .ok md => (md :: rest.1, rest.2)
    | .error e => (rest.1, e :: rest.2)

/-- The single-file resolution pipeline of `main` (part_004): extract
directives, group them by type (the switch over `directive.Type`), build
mapper definitions, then bind the mapping directives.  Validator
directives never touch the mapper definitions and are not modelled.
The registry dispatches `"mapper"` directives to `MapperProcessor` and
`"mapping"` directives to `MappingProcessor`, which the two loops inline.
The second component collects the anomaly messages of both loops. -/
def runPipeline (f : File) : List MapperDefinition × List String :=
  let ds := preprocess f
  let mapperDs := ds.filter (fun d => d.dirType == "mapper")
  let mappingDs := ds.filter (fun d => d.dirType == "mapping")
  let r1 := processMapperDirectives mapperDs
  let r2 := processMappings r1.1 mappingDs
  (r2.1, r1.2 ++ r2.2)

/-- Empty mapper method (Go zero value), used as lookup default. -/
def emptyMethod : MapperMethod :=
  { Name := "", SourceType := "", TargetType := "", Mappings := [] }

/-- Empty mapper definition (Go zero value), used as lookup default. -/
def emptyMapper : MapperDefinition :=
  { Name := "", ImplName := "", Package := "", Methods := [], TargetFile := "", Imports := [] }

/-- The finalized rule list of method `j` of mapper `i`. -/
def mappingsAt (defs : List MapperDefinition) (i j : Nat) : List FieldMappingRule :=
  (((defs.getD i emptyMapper).Methods).getD j emptyMethod).Mappings

/-! ## Helper lemmas -/

theorem listModify_length (f : α → α) (l : List α) :
    ∀ n : Nat, (listModify f n l).length = l.length := by
  induction l with
  | nil => intro n; cases n <;> rfl
  | cons a as ih =>
    intro n
    cases n with
    | zero => rfl
    | succ n => simp [listModify, ih]

theorem listModify_getD_ne (f : α → α) (l : List α) (d : α) :
    ∀ n i : Nat, i ≠ n → (listModify f n l).getD i d = l.getD i d := by
  induction l with
  | nil => intro n i _; cases n <;> rfl
  | cons a as ih =>
    intro n i h
    cases n with
    | zero =>
      cases i with
      | zero => exact absurd rfl h
      | succ i => rfl
    | succ n =>
      cases i with
      | zero => rfl
      | succ i =>
        simpa [listModify] using ih n i (fun he => h (by omega))

theorem listModify_getD_eq (f : α → α) (l : List α) (d : α) :
    ∀ n : Nat, n < l.length → (listModify f n l).getD n d = f (l.getD n d) := by
  induction l with
  | nil => intro n h; simp at h
  | cons a as ih =>
    intro n h
    cases n with
    | zero => rfl
    | succ n => simpa [listModify] using ih n (by simpa using h)

theorem listModify_of_ge (f : α → α) (l : List α) :
    ∀ n : Nat, l.length ≤ n → listModify f n l = l := by
  induction l with
  | nil => intro n _; cases n <;> rfl
  | cons a as ih =>
    intro n h
    cases n with
    | zero => simp at h
    | succ n => simp [listModify, ih n (by simpa using h)]

/-- `appendRuleAt` touches only the `Mappings` list of one method: the
rule list at any pair of indices is either unchanged or extended by the
one appended rule. -/
theorem mappingsAt_appendRuleAt (defs : List MapperDefinition) (i' j' i j : Nat)
    (r : FieldMappingRule) :
    mappingsAt (appendRuleAt defs i' j' r) i j = mappingsAt defs i j ∨
      mappingsAt (appendRuleAt defs i' j' r) i j = mappingsAt defs i j ++ [r] := by
  unfold mappingsAt appendRuleAt
  by_cases hi : i = i'
  · subst hi
    by_cases hlen : i < defs.length
    · rw [listModify_getD_eq _ defs emptyMapper i hlen]
      by_cases hj : j = j'
      · subst hj
        by_cases hjlen : j < (defs.getD i emptyMapper).Methods.length
        · right
          simp only
          rw [listModify_getD_eq _ _ emptyMethod j hjlen]
        · left
          simp only
          rw [listModify_of_ge _ _ j (by omega)]
      · left
        simp only
        rw [listModify_getD_ne _ _ _ j' j hj]
    · left
      rw [listModify_of_ge _ defs i (by omega)]
  · left
    rw [listModify_getD_ne _ _ _ i' i hi]

theorem appendRuleAt_length (defs : List MapperDefinition) (i j : Nat)
    (r : FieldMappingRule) : (appendRuleAt defs i j r).length = defs.length := by
  unfold appendRuleAt; exact listModify_length _ _ _

/-- `applyMapping` never removes rules: at every index the old rule list
is a prefix of (equal to, or extended by one rule from) the new one. -/
theorem mappingsAt_applyMapping (defs : List MapperDefinition)
    (md : MappingDefinition) (i j : Nat) :
    mappingsAt (applyMapping defs md) i j = mappingsAt defs i j ∨
      mappingsAt (applyMapping defs md) i j = mappingsAt defs i j ++ [toFieldRule md] := by
  unfold applyMapping
  cases hb : bindIndex defs md with
  | none => left; rfl
  | some ij => exact mappingsAt_appendRuleAt defs ij.1 ij.2 i j (toFieldRule md)

/-- The mapping loop only ever appends to rule lists. -/
theorem mappingsAt_processMappings (defs : List MapperDefinition)
    (ds : List Directive) (i j : Nat) :
    ∃ t, mappingsAt (processMappings defs ds).1 i j = mappingsAt defs i j ++ t := by
  induction ds generalizing defs with
  | nil => exact ⟨[], by simp [processMappings]⟩
  | cons d ds ih =>
    simp only [processMappings, registryProcessMapping]
    obtain ⟨t, ht⟩ := ih (applyMapping defs (mappingProcess d))
    rcases mappingsAt_applyMapping defs (mappingProcess d) i j with h | h
    · exact ⟨t, by rw [ht, h]⟩
    · exact ⟨[toFieldRule (mappingProcess d)] ++ t, by rw [ht, h, List.append_assoc]⟩

/-- The mapping loop never records an anomaly message: the registry
always has a processor for `"mapping"` and it never returns an error. -/
theorem processMappings_diag (defs : List MapperDefinition) (ds : List Directive) :
    (processMappings defs ds).2 = [] := by
  induction ds generalizing defs with
  | nil => rfl
  | cons d ds ih => simpa [processMappings, registryProcessMapping] using ih _

/-- Index of the first mapper whose `ImplName` matches case-insensitively
(used to state which mapper the binder's first loop selects). -/
def findMapperIdx (name : String) : List MapperDefinition → Option Nat
  | [] => none
  | mp :: rest =>
    if equalFold mp.ImplName name then some 0
    else (findMapperIdx name rest).map (· + 1)

theorem findMethodIdx_eq_none (name : String) (ms : List MapperMethod)
    (h : ∀ m ∈ ms, equalFold m.Name name = false) :
    findMethodIdx name ms = none := by
  induction ms with
  | nil => rfl
  | cons m ms ih =>
    simp [findMethodIdx, h m (by simp), ih fun m' hm' => h m' (by simp [hm'])]

theorem bindByMapperName_eq_none (mapperName methodName : String)
    (defs : List MapperDefinition)
    (h : ∀ mp ∈ defs, equalFold mp.ImplName mapperName = false) :
    bindByMapperName mapperName methodName defs = none := by
  induction defs with
  | nil => rfl
  | cons mp rest ih =>
    simp [bindByMapperName, h mp (by simp), ih fun mp' hm' => h mp' (by simp [hm'])]

theorem bindByMethodName_eq_none (methodName : String)
    (defs : List MapperDefinition)
    (h : ∀ mp ∈ defs, findMethodIdx methodName mp.Methods = none) :
    bindByMethodName methodName defs = none := by
  induction defs with
  | nil => rfl
  | cons mp rest ih =>
    simp [bindByMethodName, h mp (by simp), ih fun mp' hm' => h mp' (by simp [hm'])]

/-- Binder first loop, mapper name and method name both given and both
matched: binds to the named method inside the first name-matched mapper. -/
theorem bindByMapperName_both (mapperName methodName : String)
    (defs : List MapperDefinition) (i j : Nat)
    (hname : methodName ≠ "")
    (hi : findMapperIdx mapperName defs = some i)
    (hj : findMethodIdx methodName (defs.getD i emptyMapper).Methods = some j) :
    bindByMapperName mapperName methodName defs = some (i, j) := by
  induction defs generalizing i with
  | nil => simp [findMapperIdx] at hi
  | cons mp rest ih =>
    by_cases hfold : equalFold mp.ImplName mapperName
    · simp only [findMapperIdx, hfold, if_true, Option.some.injEq] at hi
      subst hi
      simp only [List.getD_cons_zero] at hj
      simp [bindByMapperName, hfold, hname, hj]
    · cases hrec : findMapperIdx mapperName rest with
      | none => rw [findMapperIdx, if_neg hfold, hrec] at hi; simp at hi
      | some i' =>
        rw [findMapperIdx, if_neg hfold, hrec] at hi
        simp only [Option.map_some', Option.some.injEq] at hi
        subst hi
        simp only [List.getD_cons_succ] at hj
        simp [bindByMapperName, hfold, ih i' hrec hj]

/-- Binder first loop, mapper name given, no method name: binds to the
first method of the first name-matched mapper when it has one. -/
theorem bindByMapperName_first (mapperName : String)
    (defs : List MapperDefinition) (i : Nat)
    (hi : findMapperIdx mapperName defs = some i)
    (hm : (defs.getD i emptyMapper).Methods ≠ []) :
    bindByMapperName mapperName "" defs = some (i, 0) := by
  induction defs generalizing i with
  | nil => simp [findMapperIdx] at hi
  | cons mp rest ih =>
    by_cases hfold : equalFold mp.ImplName mapperName
    · simp only [findMapperIdx, hfold, if_true, Option.some.injEq] at hi
      subst hi
      simp only [List.getD_cons_zero] at hm
      have hl : mp.Methods.length > 0 := by
        cases hml : mp.Methods with
        | nil => exact absurd hml hm
        | cons a as => simp [hml]
      simp [bindByMapperName, hfold, hl]
    · cases hrec : findMapperIdx mapperName rest with
      | none => rw [findMapperIdx, if_neg hfold, hrec] at hi; simp at hi
      | some i' =>
        rw [findMapperIdx, if_neg hfold, hrec] at hi
        simp only [Option.map_some', Option.some.injEq] at hi
        subst hi
        simp only [List.getD_cons_succ] at hm
        simp [bindByMapperName, hfold, ih i' hrec hm]

/-- Binder second loop: binds to the first method-name match across all
mappers, in declaration order. -/
theorem bindByMethodName_first (methodName : String)
    (pre post : List MapperDefinition) (mp : MapperDefinition) (j : Nat)
    (hpre : ∀ mp' ∈ pre, findMethodIdx methodName mp'.Methods = none)
    (hj : findMethodIdx methodName mp.Methods = some j) :
    bindByMethodName methodName (pre ++ mp :: post) = some (pre.length, j) := by
  induction pre with
  | nil => simp [bindByMethodName, hj]
  | cons p ps ih =>
    simp only [List.cons_append, bindByMethodName, hpre p (by simp)]
    have := ih fun mp' hm' => hpre mp' (by simp [hm'])
    simp [this]

theorem bindIndex_of_mapperName (defs : List MapperDefinition)
    (md : MappingDefinition) (ij : Nat × Nat)
    (h0 : md.MapperName ≠ "")
    (h : bindByMapperName md.MapperName md.MethodName defs = some ij) :
    bindIndex defs md = some ij := by
  simp [bindIndex, h0, h]

theorem bindIndex_of_methodName (defs : List MapperDefinition)
    (md : MappingDefinition) (ij : Nat × Nat)
    (h0 : md.MapperName = "")
    (h1 : md.MethodName ≠ "")
    (h : bindByMethodName md.MethodName defs = some ij) :
    bindIndex defs md = some ij := by
  simp [bindIndex, h0, h1, h]

/-- The last-resort fallback: no usable mapper name, no usable method
name, at least one mapper with at least one method. -/
theorem bindIndex_fallback (mp : MapperDefinition) (rest : List MapperDefinition)
    (md : MappingDefinition)
    (hM : md.MapperName = "" ∨
      ∀ mp' ∈ mp :: rest, equalFold mp'.ImplName md.MapperName = false)
    (hN : md.MethodName = "" ∨
      ∀ mp' ∈ mp :: rest, ∀ m ∈ mp'.Methods, equalFold m.Name md.MethodName = false)
    (hm : mp.Methods ≠ []) :
    bindIndex (mp :: rest) md = some (0, 0) := by
  have hl : mp.Methods.length > 0 := by
    cases hml : mp.Methods with
    | nil => exact absurd hml hm
    | cons a as => simp [hml]
  have hstep1 :
      (if md.MapperName ≠ "" then bindByMapperName md.MapperName md.MethodName (mp :: rest) else none) = none := by
    rcases hM with h | h
    · simp [h]
    · by_cases h0 : md.MapperName = ""
      · simp [h0]
      · simp only [h0, ne_eq, not_false_iff, if_true]
        exact bindByMapperName_eq_none _ _ _ h
  have hstep2 :
      (if md.MethodName ≠ "" then bindByMethodName md.MethodName (mp :: rest) else none) = none := by
    rcases hN with h | h
    · simp [h]
    · by_cases h0 : md.MethodName = ""
      · simp [h0]
      · simp only [h0, ne_eq, not_false_iff, if_true]
        exact bindByMethodName_eq_none _ _ fun mp' hmp' =>
          findMethodIdx_eq_none _ _ (h mp' hmp')
  simp [bindIndex, hstep1, hstep2, hl]

/-- A `MappingDefinition` coming out of `MappingProcessor.Process` has
empty symbolic-reference fields, so the binder always falls through to
the last-resort case. -/
theorem bindIndex_mappingProcess (defs : List MapperDefinition) (d : Directive) :
    bindIndex defs (mappingProcess d) =
      match defs with
      | [] => none
      | mp :: _ => if mp.Methods.length > 0 then some (0, 0) else none := by
  simp [bindIndex, mappingProcess]

/-- Every directive record built by the extractor scan is the hard-coded
one. -/
theorem buildDirectives_mem (fuel : Nat) (cs : List Char) (d : Directive)
    (h : d ∈ buildDirectives fuel cs) : d = hardcodedDirective := by
  induction fuel generalizing cs with
  | zero => simp [buildDirectives] at h
  | succ fuel ih =>
    cases cs with
    | nil => simp [buildDirectives] at h
    | cons c cs' =>
      rw [buildDirectives] at h
      cases hm : matchDirectiveAt (c :: cs') with
      | some rest =>
        rw [hm] at h
        rcases List.mem_cons.mp h with h | h
        · exact h
        · exact ih rest h
      | none =>
        rw [hm] at h
        exact ih cs' h

theorem findDirectivesInComment_mem (text : String) (d : Directive)
    (h : d ∈ findDirectivesInComment text) : d = hardcodedDirective :=
  buildDirectives_mem _ _ d h

/-- What one comment contributes to `Preprocessor.Process`: nothing when
no declaration follows it, else its extracted directives with the node
set. -/
def commentContribution (f : File) (c : Comment) : List Directive :=
  match findAssociatedNode f c with
  | some n => (findDirectivesInComment c.text).map (fun d => { d with Node := some n })
  | none => []

/-- Contribution of a comment group, in order. -/
def contribs (f : File) : List Comment → List Directive
  | [] => []
  | c :: cs => commentContribution f c ++ contribs f cs

/-- Contribution of the comment groups, in order. -/
def groupContribs (f : File) : List (List Comment) → List Directive
  | [] => []
  | g :: gs => contribs f g ++ groupContribs f gs

theorem inner_fold_eq (f : File) (c : Comment) (acc : List Directive)
    (ds : List Directive) :
    ds.foldl
        (fun acc3 d =>
          match findAssociatedNode f c with
          | some n => acc3 ++ [{ d with Node := some n }]
          | none => acc3)
        acc =
      acc ++
        match findAssociatedNode f c with
        | some n => ds.map (fun d => { d with Node := some n })
        | none => [] := by
  cases hn : findAssociatedNode f c with
  | some n =>
    induction ds generalizing acc with
    | nil => simp
    | cons d ds ih => simp [hn, ih]
  | none =>
    induction ds generalizing acc with
    | nil => simp
    | cons d ds ih => simp [hn, ih]

theorem middle_fold_eq (f : File) (group : List Comment) (acc : List Directive) :
    group.foldl
        (fun acc2 c =>
          (findDirectivesInComment c.text).foldl
            (fun acc3 d =>
              match findAssociatedNode f c with
              | some n => acc3 ++ [{ d with Node := some n }]
              | none => acc3)
            acc2)
        acc =
      acc ++ contribs f group := by
  induction group generalizing acc with
  | nil => simp [contribs]
  | cons c cs ih =>
    simp only [List.foldl_cons]
    rw [inner_fold_eq, ih, contribs, commentContribution]
    cases hn : findAssociatedNode f c <;> simp

/-- `Preprocessor.Process` equals the concatenation of the per-comment
contributions, in source order. -/
theorem preprocess_eq (f : File) :
    preprocess f = groupContribs f f.comments := by
  unfold preprocess
  generalize f.comments = gs
  have main : ∀ (gs : List (List Comment)) (acc : List Directive),
      gs.foldl
          (fun acc group =>
            group.foldl
              (fun acc2 c =>
                (findDirectivesInComment c.text).foldl
                  (fun acc3 d =>
                    match findAssociatedNode f c with
                    | some n => acc3 ++ [{ d with Node := some n }]
                    | none => acc3)
                  acc2)
              acc)
          acc =
        acc ++ groupContribs f gs := by
    intro gs
    induction gs with
    | nil => intro acc; simp [groupContribs]
    | cons g gs ih =>
      intro acc
      simp only [List.foldl_cons]
      rw [middle_fold_eq, ih, groupContribs, List.append_assoc]
  simpa using main gs []

/-- Every directive returned by the preprocessor carries the hard-coded
type and metadata, and a node derived from a following top-level
declaration of the file. -/
theorem preprocess_shape (f : File) (d : Directive) (h : d ∈ preprocess f) :
    d.dirType = "mapper" ∧ d.Metadata = [("impl", "user_mapper")] ∧
      ∃ decl ∈ f.decls, d.Node = some (nodeOfDecl decl) := by
  rw [preprocess_eq] at h
  have hgroup : ∀ g : List Comment, d ∈ contribs f g →
      ∃ c : Comment, d ∈ commentContribution f c := by
    intro g
    induction g with
    | nil => intro hd; simp [contribs] at hd
    | cons c cs ihc =>
      intro hd
      rw [contribs] at hd
      rcases List.mem_append.mp hd with hd | hd
      · exact ⟨c, hd⟩
      · exact ihc hd
  have hgroups : ∀ gs : List (List Comment), d ∈ groupContribs f gs →
      ∃ c : Comment, d ∈ commentContribution f c := by
    intro gs
    induction gs with
    | nil => intro hd; simp [groupContribs] at hd
    | cons g gs ihg =>
      intro hd
      rw [groupContribs] at hd
      rcases List.mem_append.mp hd with hd | hd
      · exact hgroup g hd
      · exact ihg hd
  obtain ⟨c, hc⟩ := hgroups f.comments h
  rw [commentContribution] at hc
  cases hn : findAssociatedNode f c with
  | none => rw [hn] at hc; simp at hc
  | some n =>
    rw [hn] at hc
    obtain ⟨d0, hd0, rfl⟩ := List.mem_map.mp hc
    have hd0' := findDirectivesInComment_mem _ _ hd0
    subst hd0'
    obtain ⟨decl, hfind⟩ : ∃ decl, f.decls.find? (fun x => declPos x > c.pos) = some decl := by
      unfold findAssociatedNode at hn
      cases hf : f.decls.find? (fun x => declPos x > c.pos) with
      | none => rw [hf] at hn; simp at hn
      | some decl => exact ⟨decl, rfl⟩
    refine ⟨rfl, rfl, decl, List.mem_of_find?_eq_some hfind, ?_⟩
    unfold findAssociatedNode at hn
    rw [hfind] at hn
    simp only [Option.map_some', Option.some.injEq] at hn
    simp [hn]

/-- A comment with no top-level declaration after it gets no node. -/
theorem findAssociatedNode_eq_none (f : File) (c : Comment)
    (h : ∀ decl ∈ f.decls, declPos decl ≤ c.pos) :
    findAssociatedNode f c = none := by
  unfold findAssociatedNode
  have : f.decls.find? (fun x => declPos x > c.pos) = none :=
    List.find?_eq_none.mpr fun decl hm => by
      simp only [decide_eq_true_eq, not_lt]
      exact h decl hm
  simp [this]

/-- If the preprocessor associates a node to a comment, that node derives
from a member declaration placed strictly after the comment. -/
theorem findAssociatedNode_spec (f : File) (c : Comment) (n : AstNode)
    (h : findAssociatedNode f c = some n) :
    ∃ decl ∈ f.decls, n = nodeOfDecl decl ∧ declPos decl > c.pos := by
  unfold findAssociatedNode at h
  cases hf : f.decls.find? (fun x => declPos x > c.pos) with
  | none => rw [hf] at h; simp at h
  | some decl =>
    rw [hf] at h
    simp only [Option.map_some', Option.some.injEq] at h
    have hp := List.find?_some hf
    simp only [decide_eq_true_eq] at hp
    exact ⟨decl, List.mem_of_find?_eq_some hf, h.symm, hp⟩

/-- In a position-sorted declaration list, `find?` over "starts after the
comment" returns a position-minimal such declaration. -/
theorem find?_after_min (l : List Decl) (c : Nat) (d : Decl)
    (hs : l.Pairwise (fun a b => declPos a ≤ declPos b))
    (hd : l.find? (fun x => declPos x > c) = some d) :
    ∀ d' ∈ l, declPos d' > c → declPos d ≤ declPos d' := by
  induction l with
  | nil => simp at hd
  | cons a as ih =>
    by_cases ha : declPos a > c
    · rw [List.find?_cons_of_pos _ (by simpa using ha)] at hd
      cases hd
      intro d' hd' _
      rcases List.mem_cons.mp hd' with rfl | hd'
      · exact Nat.le_refl _
      · exact (List.pairwise_cons.mp hs).1 d' hd'
    · rw [List.find?_cons_of_neg _ (by simpa using ha)] at hd
      intro d' hd' hgt
      rcases List.mem_cons.mp hd' with rfl | hd'
      · exact absurd hgt ha
      · exact ih (List.pairwise_cons.mp hs).2 hd d' hd' hgt

/-- A file all of whose comments sit at or after every top-level
declaration produces no directives at all. -/
theorem preprocess_eq_nil (f : File)
    (h : ∀ g ∈ f.comments, ∀ c ∈ g, ∀ decl ∈ f.decls, declPos decl ≤ c.pos) :
    preprocess f = [] := by
  rw [preprocess_eq]
  have hgroup : ∀ g : List Comment, (∀ c ∈ g, ∀ decl ∈ f.decls, declPos decl ≤ c.pos) →
      contribs f g = [] := by
    intro g
    induction g with
    | nil => intro _; rfl
    | cons c cs ihc =>
      intro hg
      rw [contribs, commentContribution,
        findAssociatedNode_eq_none f c (hg c (by simp))]
      exact ihc fun c' hc' => hg c' (by simp [hc'])
  have hgs : ∀ gs : List (List Comment),
      (∀ g ∈ gs, ∀ c ∈ g, ∀ decl ∈ f.decls, declPos decl ≤ c.pos) →
      groupContribs f gs = [] := by
    intro gs
    induction gs with
    | nil => intro _; rfl
    | cons g gs ihg =>
      intro hgs
      rw [groupContribs, hgroup g (hgs g (by simp)), ihg fun g' hg' => hgs g' (by simp [hg'])]
      rfl
  exact hgs f.comments h

theorem splitOnChar_ne_nil (sep : Char) (cs : List Char) :
    splitOnChar sep cs ≠ [] := by
  cases cs with
  | nil => simp [splitOnChar]
  | cons c cs' =>
    rw [splitOnChar]
    by_cases h : c == sep
    · simp [h]
    · simp only [h, if_false]
      cases hrec : splitOnChar sep cs' <;> simp

theorem splitOnChar_no_sep (sep : Char) (cs : List Char)
    (h : ∀ c ∈ cs, c ≠ sep) : splitOnChar sep cs = [cs] := by
  induction cs with
  | nil => rfl
  | cons c cs' ih =>
    rw [splitOnChar]
    have hc : (c == sep) = false := by
      simp only [beq_eq_false_iff_ne]
      exact h c (by simp)
    rw [hc]
    simp only [Bool.false_eq_true, if_false]
    rw [ih fun c' hc' => h c' (by simp [hc'])]

/-- A pointer to a dot-free type name has no package qualifier. -/
theorem extractPackage_star_plain (n : String) (h : '.' ∉ n.data) :
    extractPackage ("*" ++ n) = "" := by
  unfold extractPackage
  have hdata : ("*" ++ n).data = '*' :: n.data := by
    rw [String.data_append]; rfl
  rw [hdata]
  simp only
  rw [splitOnChar_no_sep '.' n.data fun c hc he => h (he ▸ hc)]

/-- A `*dto.`-qualified type always has package qualifier `dto`. -/
theorem extractPackage_star_dto (n : String) :
    extractPackage ("*dto." ++ n) = "dto" := by
  unfold extractPackage
  have hdata : ("*dto." ++ n).data = '*' :: 'd' :: 't' :: 'o' :: '.' :: n.data := by
    rw [String.data_append]; rfl
  rw [hdata]
  cases hrec : splitOnChar '.' n.data with
  | nil => exact absurd hrec (splitOnChar_ne_nil '.' n.data)
  | cons p ps => simp [splitOnChar, hrec]

theorem addImport_mem (imps : List String) (p q : String) :
    q ∈ addImport imps p ↔ q ∈ imps ∨ (p ≠ "" ∧ q = p) := by
  unfold addImport
  by_cases hp : p = ""
  · simp [hp]
  · simp only [hp, if_false]
    by_cases hm : p ∈ imps
    · simp only [hm, if_true]
      constructor
      · exact fun h => Or.inl h
      · rintro (h | ⟨-, rfl⟩)
        · exact h
        · exact hm
    · simp only [hm, if_false, List.mem_append, List.mem_singleton]
      constructor
      · rintro (h | rfl)
        · exact Or.inl h
        · exact Or.inr ⟨hp, rfl⟩
      · rintro (h | ⟨-, rfl⟩)
        · exact Or.inl h
        · exact Or.inr rfl

theorem addImport_nodup (imps : List String) (p : String)
    (h : imps.Nodup) : (addImport imps p).Nodup := by
  unfold addImport
  by_cases hp : p = ""
  · simpa [hp]
  · simp only [hp, if_false]
    by_cases hm : p ∈ imps
    · simpa [hm]
    · simpa [hm, List.nodup_append] using h

theorem ifaceMethods_mappings (entries : List IfaceEntry) (m : MapperMethod)
    (h : m ∈ ifaceMethods entries) : m.Mappings = [] := by
  induction entries with
  | nil => simp [ifaceMethods] at h
  | cons e es ih =>
    cases e with
    | embedded _ => exact ih h
    | method _ names sig =>
      rw [ifaceMethods] at h
      rcases List.mem_cons.mp h with rfl | h
      · rfl
      · exact ih h

theorem ifaceImports_mem (entries : List IfaceEntry) :
    ∀ (acc : List String) (q : String),
      q ∈ ifaceImports acc entries ↔
        q ∈ acc ∨ (q ≠ "" ∧ ∃ m ∈ ifaceMethods entries,
          q = extractPackage m.SourceType ∨ q = extractPackage m.TargetType) := by
  induction entries with
  | nil => intro acc q; simp [ifaceImports, ifaceMethods]
  | cons e es ih =>
    intro acc q
    cases e with
    | embedded _ => simpa [ifaceImports, ifaceMethods] using ih acc q
    | method _ names sig =>
      rw [ifaceImports, ifaceMethods]
      rw [ih]
      rw [addImport_mem, addImport_mem]
      constructor
      · rintro (((h | ⟨hs, rfl⟩) | ⟨ht, rfl⟩) | ⟨hq, m, hm, hm'⟩)
        · exact Or.inl h
        · exact Or.inr ⟨hs, methodOfSig names sig, by simp, Or.inl rfl⟩
        · exact Or.inr ⟨ht, methodOfSig names sig, by simp, Or.inr rfl⟩
        · exact Or.inr ⟨hq, m, by simp [hm], hm'⟩
      · rintro (h | ⟨hq, m, hm, hm'⟩)
        · exact Or.inl (Or.inl (Or.inl h))
        · rcases List.mem_cons.mp hm with rfl | hm
          · rcases hm' with rfl | rfl
            · exact Or.inl (Or.inl (Or.inr ⟨hq, rfl⟩))
            · exact Or.inl (Or.inr ⟨hq, rfl⟩)
          · exact Or.inr ⟨hq, m, hm, hm'⟩

theorem ifaceImports_nodup (entries : List IfaceEntry) :
    ∀ acc : List String, acc.Nodup → (ifaceImports acc entries).Nodup := by
  induction entries with
  | nil => intro acc h; exact h
  | cons e es ih =>
    intro acc h
    cases e with
    | embedded _ => exact ih acc h
    | method _ names sig =>
      exact ih _ (addImport_nodup _ _ (addImport_nodup _ _ h))

/-- The mapper processor succeeds exactly on `TypeSpec` nodes, and its
output is `mapperProcessTS`. -/
theorem mapperProcess_ok (d : Directive) (md : MapperDefinition)
    (h : mapperProcess d = .ok md) :
    ∃ ts, d.Node = some (.typeSpec ts) ∧ md = mapperProcessTS d ts := by
  unfold mapperProcess at h
  cases hn : d.Node with
  | none => rw [hn] at h; exact absurd h (by simp)
  | some n =>
    cases n with
    | typeSpec ts =>
      rw [hn] at h
      simp only [Except.ok.injEq] at h
      exact ⟨ts, rfl, h.symm⟩
    | genDecl p specs => rw [hn] at h; exact absurd h (by simp)
    | funcDecl p name => rw [hn] at h; exact absurd h (by simp)
    | otherDecl p => rw [hn] at h; exact absurd h (by simp)

/-- The methods constructed by the mapper processor, by interface shape. -/
theorem mapperProcessTS_methods (d : Directive) (ts : TypeSpec) :
    (mapperProcessTS d ts).Methods =
      match ts.body with
      | .iface entries => ifaceMethods entries
      | .nonInterface =>
        [ { Name := "ToDTO", SourceType := "*" ++ ts.name,
            TargetType := "*dto." ++ ts.name ++ "DTO", Mappings := [] },
          { Name := "ToEntity", SourceType := "*dto." ++ ts.name ++ "DTO",
            TargetType := "*" ++ ts.name, Mappings := [] } ] := by
  unfold mapperProcessTS
  cases ts.body <;> rfl

/-- The imports constructed by the mapper processor, by interface shape. -/
theorem mapperProcessTS_imports (d : Directive) (ts : TypeSpec) :
    (mapperProcessTS d ts).Imports =
      match ts.body with
      | .iface entries => ifaceImports [] entries
      | .nonInterface => ["dto"] := by
  unfold mapperProcessTS
  cases ts.body <;> rfl

/-- Every method of any mapper definition the processor outputs starts
with an empty rule list. -/
theorem mapperProcess_mappings (d : Directive) (md : MapperDefinition)
    (h : mapperProcess d = .ok md) (m : MapperMethod) (hm : m ∈ md.Methods) :
    m.Mappings = [] := by
  obtain ⟨ts, hn, rfl⟩ := mapperProcess_ok d md h
  rw [mapperProcessTS_methods] at hm
  cases hb : ts.body with
  | iface entries =>
    rw [hb] at hm
    exact ifaceMethods_mappings entries m hm
  | nonInterface =>
    rw [hb] at hm
    simp only [List.mem_cons, List.not_mem_nil, or_false] at hm
    rcases hm with rfl | rfl <;> rfl

/-- Every definition collected by the mapper loop comes from a directive
the processor accepted. -/
theorem processMapperDirectives_mem (ds : List Directive) (md : MapperDefinition)
    (h : md ∈ (processMapperDirectives ds).1) :
    ∃ d ∈ ds, mapperProcess d = .ok md := by
  induction ds with
  | nil => simp [processMapperDirectives] at h
  | cons d ds ih =>
    rw [processMapperDirectives] at h
    cases hp : mapperProcess d with
    | ok md' =>
      rw [hp] at h
      simp only at h
      rcases List.mem_cons.mp h with rfl | h
      · exact ⟨d, by simp, hp⟩
      · obtain ⟨d', hd', h'⟩ := ih h
        exact ⟨d', by simp [hd'], h'⟩
    | error e =>
      rw [hp] at h
      simp only at h
      obtain ⟨d', hd', h'⟩ := ih h
      exact ⟨d', by simp [hd'], h'⟩

/-- Because the extractor hard-codes every directive type to `"mapper"`,
the pipeline's mapping-directive group is empty and the whole run reduces
to the mapper loop. -/
theorem runPipeline_eq (f : File) :
    runPipeline f = processMapperDirectives (preprocess f) := by
  unfold runPipeline
  have hfilter1 : (preprocess f).filter (fun d => d.dirType == "mapper") = preprocess f :=
    List.filter_eq_self.mpr fun d hd => by
      simp [(preprocess_shape f d hd).1]
  have hfilter2 : (preprocess f).filter (fun d => d.dirType == "mapping") = [] :=
    List.filter_eq_nil_iff.mpr fun d hd => by
      simp [(preprocess_shape f d hd).1]
  simp only [hfilter1, hfilter2]
  simp [processMappings]

/-- The `TypeSpec`s contained in a top-level declaration. -/
def declTypeSpecs : Decl → List TypeSpec
  | .genDecl _ specs =>
    specs.filterMap (fun s => match s with | .typeSpec ts => some ts | .otherSpec => none)
  | .funcDecl _ _ => []
  | .otherDecl _ => []

/-- Go type names are identifiers and never contain a dot; this is the
well-formedness assumption on input files reflecting that invariant. -/
def dotFreeTypeNames (f : File) : Prop :=
  ∀ decl ∈ f.decls, ∀ ts ∈ declTypeSpecs decl, '.' ∉ ts.name.data

theorem nodeOfDecl_typeSpec (decl : Decl) (ts : TypeSpec)
    (h : nodeOfDecl decl = .typeSpec ts) : ts ∈ declTypeSpecs decl := by
  cases decl with
  | genDecl p specs =>
    rw [nodeOfDecl] at h
    cases hf : specs.find? isTypeSpecB with
    | none => rw [hf] at h; exact absurd h (by simp)
    | some s =>
      cases s with
      | otherSpec => rw [hf] at h; exact absurd h (by simp)
      | typeSpec ts' =>
        rw [hf] at h
        simp only [AstNode.typeSpec.injEq] at h
        subst h
        have hmem := List.mem_of_find?_eq_some hf
        simp only [declTypeSpecs, List.mem_filterMap]
        exact ⟨Spec.typeSpec ts', hmem, rfl⟩
  | funcDecl p name => exact absurd h (by simp [nodeOfDecl])
  | otherDecl p => exact absurd h (by simp [nodeOfDecl])

/-- Import-set exactness for the processor output: the imports are
duplicate-free and contain exactly the nonempty package qualifiers of the
method source/target types (and of the `using` functions of the rules,
all of which are still empty at construction time). -/
theorem mapperProcessTS_imports_spec (d : Directive) (ts : TypeSpec)
    (hdot : '.' ∉ ts.name.data) :
    (mapperProcessTS d ts).Imports.Nodup ∧
      ∀ p, p ∈ (mapperProcessTS d ts).Imports ↔
        (p ≠ "" ∧ ∃ m ∈ (mapperProcessTS d ts).Methods,
          p = extractPackage m.SourceType ∨ p = extractPackage m.TargetType ∨
            ∃ r ∈ m.Mappings, p = extractPackage r.Using) := by
  rw [mapperProcessTS_imports, mapperProcessTS_methods]
  cases hb : ts.body with
  | iface entries =>
    refine ⟨ifaceImports_nodup entries [] (by simp), fun p => ?_⟩
    rw [ifaceImports_mem]
    constructor
    · rintro (h | ⟨hp, m, hm, hm'⟩)
      · simp at h
      · refine ⟨hp, m, hm, ?_⟩
        rcases hm' with h | h
        · exact Or.inl h
        · exact Or.inr (Or.inl h)
    · rintro ⟨hp, m, hm, (h | h | ⟨r, hr, -⟩)⟩
      · exact Or.inr ⟨hp, m, hm, Or.inl h⟩
      · exact Or.inr ⟨hp, m, hm, Or.inr h⟩
      · rw [ifaceMethods_mappings entries m hm] at hr
        simp at hr
  | nonInterface =>
    have hsrc : extractPackage ("*" ++ ts.name) = "" :=
      extractPackage_star_plain ts.name hdot
    have htgt : extractPackage ("*dto." ++ ts.name ++ "DTO") = "dto" := by
      rw [String.append_assoc]
      exact extractPackage_star_dto (ts.name ++ "DTO")
    refine ⟨by simp, fun p => ?_⟩
    simp only [List.mem_singleton, List.mem_cons, List.not_mem_nil, or_false]
    constructor
    · rintro rfl
      refine ⟨by decide, ?_⟩
      refine ⟨_, Or.inl rfl, ?_⟩
      simp only
      rw [htgt]
      exact Or.inr (Or.inl rfl)
    · rintro ⟨hp, m, (rfl | rfl), (h | h | ⟨r, hr, -⟩)⟩
      · simp only at h; rw [hsrc] at h; exact absurd h hp
      · simp only at h; rw [htgt] at h; exact h
      · simp at hr
      · simp only at h; rw [htgt] at h; exact h
      · simp only at h; rw [hsrc] at h; exact absurd h hp
      · simp at hr

/-! ## Further support lemmas for the mapping loop -/

theorem mappingsAt_appendRuleAt_hit (defs : List MapperDefinition) (i j : Nat)
    (r : FieldMappingRule) (hi : i < defs.length)
    (hj : j < (defs.getD i emptyMapper).Methods.length) :
    mappingsAt (appendRuleAt defs i j r) i j = mappingsAt defs i j ++ [r] := by
  unfold mappingsAt appendRuleAt
  rw [listModify_getD_eq _ defs emptyMapper i hi]
  simp only
  rw [listModify_getD_eq _ _ emptyMethod j hj]

theorem appendRuleAt_methods_length (defs : List MapperDefinition) (i j : Nat)
    (r : FieldMappingRule) (k : Nat) :
    ((appendRuleAt defs i j r).getD k emptyMapper).Methods.length =
      ((defs.getD k emptyMapper).Methods).length := by
  unfold appendRuleAt
  by_cases hk : k = i
  · subst hk
    by_cases hl : k < defs.length
    · rw [listModify_getD_eq _ defs emptyMapper k hl]
      simp [listModify_length]
    · rw [listModify_of_ge _ defs k (by omega)]
  · rw [listModify_getD_ne _ _ _ i k hk]

theorem processMappings_pair (defs : List MapperDefinition) (d1 d2 : Directive) :
    processMappings defs [d1, d2] =
      (applyMapping (applyMapping defs (mappingProcess d1)) (mappingProcess d2), []) := by
  rfl

/-! ## Concrete inputs used by witnesses and counterexamples -/

/-- A one-method mapper contract as the pipeline builds it for the README
example. -/
def exBaseMapper : MapperDefinition :=
  { Name := ""
    ImplName := "userMapper"
    Package := "mapper"
    Methods := [{ Name := "ToDTO", SourceType := "*proto.User",
                  TargetType := "*dto.UserDTO", Mappings := [] }]
    TargetFile := ""
    Imports := ["proto", "dto"] }

/-- A mapper definition with no methods. -/
def exEmptyMapper : MapperDefinition :=
  { Name := "", ImplName := "emptyMapper", Package := "mapper",
    Methods := [], TargetFile := "", Imports := [] }

/-- A mapping directive `from:UserName to:Name`. -/
def exDirFromTo : Directive :=
  { dirType := "mapping", Metadata := [("from", "UserName"), ("to", "Name")], Node := none }

/-- A second mapping directive targeting the same field: `from:DisplayName to:Name`. -/
def exDirToName2 : Directive :=
  { dirType := "mapping", Metadata := [("from", "DisplayName"), ("to", "Name")], Node := none }

/-- An ignore directive `ignore:Name`. -/
def exDirIgnore : Directive :=
  { dirType := "mapping", Metadata := [("ignore", "Name")], Node := none }

/-- Two-method user mapper for binder scenarios. -/
def exUserMapper4 : MapperDefinition :=
  { Name := "", ImplName := "userMapper", Package := "mapper",
    Methods := [{ Name := "ToDTO", SourceType := "*User", TargetType := "*dto.UserDTO", Mappings := [] },
                { Name := "ToEntity", SourceType := "*dto.UserDTO", TargetType := "*User", Mappings := [] }],
    TargetFile := "", Imports := ["dto"] }

/-- One-method address mapper for binder scenarios. -/
def exAddrMapper4 : MapperDefinition :=
  { Name := "", ImplName := "addressDtoMapper", Package := "mapper",
    Methods := [{ Name := "ToAddressDto", SourceType := "*Address",
                  TargetType := "*dto.AddressDTO", Mappings := [] }],
    TargetFile := "", Imports := ["dto"] }

/-- Two contracts, in declaration order. -/
def exDefs4 : List MapperDefinition := [exUserMapper4, exAddrMapper4]

/-- Mapping with mapper and method names given (case differs). -/
def exMdA : MappingDefinition :=
  { From := "a", To := "b", Using := "", Ignore := false,
    MapperName := "AddressDtoMapper", MethodName := "TOADDRESSDTO" }

/-- Mapping naming a one-method mapper and no method (scenario C). -/
def exMdB : MappingDefinition :=
  { From := "a", To := "b", Using := "", Ignore := false,
    MapperName := "addressdtoMAPPER", MethodName := "" }

/-- Mapping with only a method name. -/
def exMdC : MappingDefinition :=
  { From := "a", To := "b", Using := "", Ignore := false,
    MapperName := "", MethodName := "toaddressdto" }

/-- Mapping with neither name. -/
def exMdD : MappingDefinition :=
  { From := "a", To := "b", Using := "", Ignore := false,
    MapperName := "", MethodName := "" }

/-- Source file: one annotated interface contract, one later function. -/
def exIface3 : TypeSpec :=
  { name := "UserMapper"
    body := .iface [.method 20 ["ToDTO"]
      { params := [TypeExpr.star (TypeExpr.selector (TypeExpr.ident "proto") "User")]
        results := [TypeExpr.star (TypeExpr.selector (TypeExpr.ident "dto") "UserDTO")] }] }

/-- File with a mapper directive above the contract and no mapping
directives: the convention-fallback situation of §4.4 step 4. -/
def exFile3 : File :=
  { decls := [.genDecl 10 [.typeSpec exIface3]]
    comments := [[{ pos := 5, text := "// +mapgen:mapper impl:userMapper" }]] }

/-- File for the node associator: a contract whose body holds a method at
position 20, a comment inside the body at position 15, and a following
top-level function at position 50. -/
def exIface5 : TypeSpec :=
  { name := "M"
    body := .iface [.method 20 ["ToDTO"] { params := [], results := [] }] }

/-- See `exIface5`: the contract at 10 with its method at 20, then a
function at 50. -/
def exFile5 : File :=
  { decls := [.genDecl 10 [.typeSpec exIface5], .funcDecl 50 "Helper"]
    comments := [[{ pos := 15, text := "// +mapgen:mapping from:UserName to:Name" }]] }

/-- The comment of `exFile5`. -/
def exComment5 : Comment :=
  { pos := 15, text := "// +mapgen:mapping from:UserName to:Name" }

/-- File whose only directive comment sits after the last declaration. -/
def exFile10 : File :=
  { decls := [.funcDecl 5 "Helper"]
    comments := [[{ pos := 100, text := "// +mapgen:mapper impl:userMapper" }]] }

/-- Non-interface type spec for the mapper directive of C9. -/
def exTS9 : TypeSpec := { name := "User", body := .nonInterface }

/-- Mapper directive bound to a struct type. -/
def exD9 : Directive :=
  { dirType := "mapper", Metadata := [], Node := some (.typeSpec exTS9) }

/-- Binding succeeds at `(0, 0)` for a processed mapping directive as
soon as there is a first mapper with a first method. -/
theorem bindIndex_mappingProcess_pos (defs : List MapperDefinition) (d : Directive)
    (h0 : 0 < defs.length) (h1 : 0 < (defs.getD 0 emptyMapper).Methods.length) :
    bindIndex defs (mappingProcess d) = some (0, 0) := by
  rw [bindIndex_mappingProcess]
  cases defs with
  | nil => simp at h0
  | cons mp rest =>
    simp only [List.getD_cons_zero] at h1
    simp [h1]

/-! ## Claim theorems -/

/-- C1, counterexample.  The claim says that when any ignore directive
targets a field `f`, the finalized rules contain no emitted (non-ignored)
rule to or from `f`.  Here the ignore directive `ignore:Name` targets the
field `Name` (second conjunct), yet after processing both directives the
finalized rule list still holds the non-ignored rule `UserName → Name`;
the ignore directive merely appends a detached `Ignore := true` rule whose
field names are empty because `MappingProcessor.Process` discards the
value of the `ignore` attribute. -/
theorem C1_counterexample :
    lookupMeta exDirIgnore.Metadata "ignore" = some "Name" ∧
    mappingsAt (processMappings [exBaseMapper] [exDirFromTo, exDirIgnore]).1 0 0 =
      [ { From := "UserName", To := "Name", Ignore := false, Using := "" },
        { From := "", To := "", Ignore := true, Using := "" } ] := by
  decide

/-- C1, amended.  Ignore directives never suppress rules: the mapping
loop only ever appends to a method's rule list, so every previously
resolved rule — in particular every non-ignored rule to or from an
ignored field — survives verbatim, and a single directive (ignore or not)
either leaves a rule list unchanged or appends exactly its own converted
rule. -/
theorem C1_ignore_never_suppresses (defs : List MapperDefinition)
    (ds : List Directive) (d : Directive) (i j : Nat) :
    (∃ t, mappingsAt (processMappings defs ds).1 i j = mappingsAt defs i j ++ t) ∧
    (mappingsAt (processMappings defs [d]).1 i j = mappingsAt defs i j ∨
      mappingsAt (processMappings defs [d]).1 i j =
        mappingsAt defs i j ++ [toFieldRule (mappingProcess d)]) := by
  refine ⟨mappingsAt_processMappings defs ds i j, ?_⟩
  have h1 : processMappings defs [d] = (applyMapping defs (mappingProcess d), []) := rfl
  rw [h1]
  exact mappingsAt_applyMapping defs (mappingProcess d) i j

/-- C2, counterexample.  The claim says two non-ignore rules never share
a resolved `toField` in a finalized method: the later should replace the
earlier, with a superseded-rule warning.  Processing `from:UserName
to:Name` then `from:DisplayName to:Name` instead keeps both rules (the
earlier one is not superseded) and emits no warning (the diagnostics
component is empty). -/
theorem C2_counterexample :
    mappingsAt (processMappings [exBaseMapper] [exDirFromTo, exDirToName2]).1 0 0 =
      [ { From := "UserName", To := "Name", Ignore := false, Using := "" },
        { From := "DisplayName", To := "Name", Ignore := false, Using := "" } ] ∧
    (processMappings [exBaseMapper] [exDirFromTo, exDirToName2]).2 = [] := by
  decide

/-- C2, amended.  Two mapping directives processed in order are both
appended, in declaration order, to the first method of the first mapper
(both attribute sets are kept, nothing is replaced), and no warning is
emitted. -/
theorem C2_conflicting_rules_both_kept (mp : MapperDefinition)
    (rest : List MapperDefinition) (d1 d2 : Directive) (hm : mp.Methods ≠ []) :
    mappingsAt (processMappings (mp :: rest) [d1, d2]).1 0 0 =
      mappingsAt (mp :: rest) 0 0 ++
        [toFieldRule (mappingProcess d1), toFieldRule (mappingProcess d2)] ∧
    (processMappings (mp :: rest) [d1, d2]).2 = [] := by
  have hl : 0 < mp.Methods.length := List.length_pos.mpr hm
  have hl0 : 0 < ((mp :: rest).getD 0 emptyMapper).Methods.length := by
    simpa using hl
  have hb1 := bindIndex_mappingProcess_pos (mp :: rest) d1 (by simp) hl0
  have happly1 : applyMapping (mp :: rest) (mappingProcess d1) =
      appendRuleAt (mp :: rest) 0 0 (toFieldRule (mappingProcess d1)) := by
    unfold applyMapping
    rw [hb1]
  have hlen2 : 0 < (appendRuleAt (mp :: rest) 0 0 (toFieldRule (mappingProcess d1))).length := by
    rw [appendRuleAt_length]
    simp
  have hml2 : 0 < ((appendRuleAt (mp :: rest) 0 0
      (toFieldRule (mappingProcess d1))).getD 0 emptyMapper).Methods.length := by
    rw [appendRuleAt_methods_length]
    exact hl0
  have hb2 := bindIndex_mappingProcess_pos _ d2 hlen2 hml2
  rw [processMappings_pair, happly1]
  refine ⟨?_, rfl⟩
  show mappingsAt (applyMapping _ _) 0 0 = _
  unfold applyMapping
  rw [hb2]
  rw [mappingsAt_appendRuleAt_hit _ 0 0 _ hlen2 hml2]
  rw [mappingsAt_appendRuleAt_hit _ 0 0 _ (by simp) hl0]
  rw [List.append_assoc]
  rfl

/-- C2, witness for the amended theorem at the concrete inputs of the
counterexample run. -/
theorem C2_witness :
    exBaseMapper.Methods ≠ [] ∧
    (mappingsAt (processMappings [exBaseMapper] [exDirFromTo, exDirToName2]).1 0 0 =
        mappingsAt [exBaseMapper] 0 0 ++
          [toFieldRule (mappingProcess exDirFromTo), toFieldRule (mappingProcess exDirToName2)] ∧
      (processMappings [exBaseMapper] [exDirFromTo, exDirToName2]).2 = []) :=
  ⟨by decide, C2_conflicting_rules_both_kept exBaseMapper [] exDirFromTo exDirToName2 (by decide)⟩

/-- Modelled from the spec: the convention-fallback synthesis of §4.4
step 4, used only to exhibit what the claim predicts.  Given the field
lists supplied by the type-information collaborator, one rule per target
field whose name case-insensitively matches a source field name, with no
`usingFunction`. -/
def specConventionRules (sourceFields targetFields : List String) :
    List FieldMappingRule :=
  targetFields.filterMap fun tf =>
    match sourceFields.find? (fun sf => equalFold sf tf) with
    | some sf => some { From := sf, To := tf, Ignore := false, Using := "" }
    | none => none

/-- The mapper definition the pipeline produces for `exFile3`. -/
def exMapperDef3 : MapperDefinition :=
  { Name := ""
    ImplName := "user_mapper"
    Package := "mapper"
    Methods := [{ Name := "ToDTO", SourceType := "*proto.User",
                  TargetType := "*dto.UserDTO", Mappings := [] }]
    TargetFile := ""
    Imports := ["proto", "dto"] }

/-- C3, counterexample.  `exFile3` declares one contract with one method
and no mapping directives, so the method's candidate rule list is empty;
with collaborator-known field lists (`ID, UserName, Email` on the source,
`Id, UserName` on the target) the claim requires the two synthesized
case-insensitive name-match rules shown in the third conjunct.  The
pipeline instead finalizes the method with zero rules: no convention
fallback exists anywhere in the code. -/
theorem C3_counterexample :
    (runPipeline exFile3).1 = [exMapperDef3] ∧
    exMapperDef3.Methods.map (·.Mappings) = [[]] ∧
    specConventionRules ["ID", "UserName", "Email"] ["Id", "UserName"] =
      [ { From := "ID", To := "Id", Ignore := false, Using := "" },
        { From := "UserName", To := "UserName", Ignore := false, Using := "" } ] := by
  decide

/-- C3, amended.  No convention fallback exists: every method of every
mapper definition a pipeline run produces has an empty finalized rule
list, whatever the field lists of its types are — in particular a method
with zero explicit rules receives no synthesized name-matching rule (and,
trivially, neither does a method with explicit rules). -/
theorem C3_no_convention_fallback (f : File) (md : MapperDefinition)
    (m : MapperMethod) (hmd : md ∈ (runPipeline f).1) (hm : m ∈ md.Methods) :
    m.Mappings = [] := by
  rw [runPipeline_eq] at hmd
  obtain ⟨d, _, hok⟩ := processMapperDirectives_mem _ md hmd
  exact mapperProcess_mappings d md hok m hm

/-- C3, witness: the amended theorem applied to the concrete run on
`exFile3`. -/
theorem C3_witness :
    exMapperDef3 ∈ (runPipeline exFile3).1 ∧
    { Name := "ToDTO", SourceType := "*proto.User",
      TargetType := "*dto.UserDTO", Mappings := ([] : List FieldMappingRule) } ∈ exMapperDef3.Methods ∧
    ({ Name := "ToDTO", SourceType := "*proto.User",
       TargetType := "*dto.UserDTO", Mappings := ([] : List FieldMappingRule) } : MapperMethod).Mappings = [] :=
  ⟨by decide, by decide,
    C3_no_convention_fallback exFile3 exMapperDef3 _ (by decide) (by decide)⟩

/-- C4, confirmed.  The binder search order of part_004 lines 157-216,
in the claim's four cases (`findMapperIdx` states "first case-insensitive
`implementationName` match", `findMethodIdx` "first case-insensitive
method-name match"):
(a)+(b) a given mapper name selects the first matching mapper and a given
method name the matching method inside it;
(a) with no method name, the directive binds to that mapper's first
method — for a one-method mapper, its sole method (scenario C);
(c) with no mapper name but a method name, all mappers are searched in
declaration order for the first method-name match;
(d) when neither name resolves and the first mapper has a method, the
directive binds to the first method of the first mapper. -/
theorem C4_reference_binder_order :
    (∀ (defs : List MapperDefinition) (md : MappingDefinition) (i j : Nat),
      md.MapperName ≠ "" → md.MethodName ≠ "" →
      findMapperIdx md.MapperName defs = some i →
      findMethodIdx md.MethodName (defs.getD i emptyMapper).Methods = some j →
      bindIndex defs md = some (i, j)) ∧
    (∀ (defs : List MapperDefinition) (md : MappingDefinition) (i : Nat),
      md.MapperName ≠ "" → md.MethodName = "" →
      findMapperIdx md.MapperName defs = some i →
      (defs.getD i emptyMapper).Methods ≠ [] →
      bindIndex defs md = some (i, 0)) ∧
    (∀ (pre post : List MapperDefinition) (mp : MapperDefinition)
        (md : MappingDefinition) (j : Nat),
      md.MapperName = "" → md.MethodName ≠ "" →
      (∀ mp' ∈ pre, findMethodIdx md.MethodName mp'.Methods = none) →
      findMethodIdx md.MethodName mp.Methods = some j →
      bindIndex (pre ++ mp :: post) md = some (pre.length, j)) ∧
    (∀ (mp : MapperDefinition) (rest : List MapperDefinition)
        (md : MappingDefinition),
      (md.MapperName = "" ∨
        ∀ mp' ∈ mp :: rest, equalFold mp'.ImplName md.MapperName = false) →
      (md.MethodName = "" ∨
        ∀ mp' ∈ mp :: rest, ∀ m ∈ mp'.Methods, equalFold m.Name md.MethodName = false) →
      mp.Methods ≠ [] →
      bindIndex (mp :: rest) md = some (0, 0)) := by
  refine ⟨?_, ?_, ?_, ?_⟩
  · intro defs md i j h0 h1 hi hj
    exact bindIndex_of_mapperName defs md (i, j) h0
      (bindByMapperName_both md.MapperName md.MethodName defs i j h1 hi hj)
  · intro defs md i h0 h1 hi hm
    refine bindIndex_of_mapperName defs md (i, 0) h0 ?_
    rw [h1]
    exact bindByMapperName_first md.MapperName defs i hi hm
  · intro pre post mp md j h0 h1 hpre hj
    exact bindIndex_of_methodName _ md (pre.length, j) h0 h1
      (bindByMethodName_first md.MethodName pre post mp j hpre hj)
  · intro mp rest md hM hN hm
    exact bindIndex_fallback mp rest md hM hN hm

/-- C4, witness: the four cases at concrete inputs over the two contracts
`userMapper` (methods `ToDTO`, `ToEntity`) and `addressDtoMapper` (sole
method `ToAddressDto`), including scenario C (`exMdB`). -/
theorem C4_witness :
    (findMapperIdx "AddressDtoMapper" exDefs4 = some 1 ∧
      bindIndex exDefs4 exMdA = some (1, 0)) ∧
    (exAddrMapper4.Methods ≠ [] ∧ bindIndex exDefs4 exMdB = some (1, 0)) ∧
    (findMethodIdx "toaddressdto" exUserMapper4.Methods = none ∧
      bindIndex exDefs4 exMdC = some (1, 0)) ∧
    (exUserMapper4.Methods ≠ [] ∧ bindIndex exDefs4 exMdD = some (0, 0)) :=
  ⟨⟨by decide, C4_reference_binder_order.1 exDefs4 exMdA 1 0 (by decide) (by decide)
      (by decide) (by decide)⟩,
    ⟨by decide, C4_reference_binder_order.2.1 exDefs4 exMdB 1 (by decide) rfl
      (by decide) (by decide)⟩,
    ⟨by decide, C4_reference_binder_order.2.2.1 [exUserMapper4] [] exAddrMapper4 exMdC 0
      rfl (by decide) (by decide) (by decide)⟩,
    ⟨by decide, C4_reference_binder_order.2.2.2 exUserMapper4 [exAddrMapper4] exMdD
      (Or.inl rfl) (Or.inl rfl) (by decide)⟩⟩

/-- C5, counterexample.  The comment at position 15 lies inside the
contract body immediately above the contract's method at position 20
(15 < 20 < 50), so the claim requires binding to that method.
`findAssociatedNode` searches only the top-level declaration list and
returns the function declaration at position 50 instead — interface
methods are not in its search space at all. -/
theorem C5_counterexample :
    exComment5.pos = 15 ∧
    exFile5.decls = [Decl.genDecl 10 [Spec.typeSpec exIface5], Decl.funcDecl 50 "Helper"] ∧
    exIface5.body = .iface [.method 20 ["ToDTO"] { params := [], results := [] }] ∧
    findAssociatedNode exFile5 exComment5 = some (AstNode.funcDecl 50 "Helper") := by
  decide

/-- C5, amended.  The associator works on top-level declarations only:
every returned node derives from a member top-level declaration that
starts strictly after the directive's position; under source ordering it
is a position-minimal such declaration; and with no following top-level
declaration the result is `none` (unbound), never an error.  A directive
above a method inside a contract body is bound to the next top-level
declaration, not to the method. -/
theorem C5_top_level_association :
    (∀ (f : File) (c : Comment) (n : AstNode),
      findAssociatedNode f c = some n →
      ∃ decl ∈ f.decls, n = nodeOfDecl decl ∧ declPos decl > c.pos) ∧
    (∀ (f : File) (c : Comment),
      f.decls.Pairwise (fun a b => declPos a ≤ declPos b) →
      ∀ decl ∈ f.decls, declPos decl > c.pos →
        ∃ decl0 ∈ f.decls, findAssociatedNode f c = some (nodeOfDecl decl0) ∧
          declPos decl0 > c.pos ∧ declPos decl0 ≤ declPos decl) ∧
    (∀ (f : File) (c : Comment),
      (∀ decl ∈ f.decls, ¬ declPos decl > c.pos) → findAssociatedNode f c = none) := by
  refine ⟨findAssociatedNode_spec, ?_, ?_⟩
  · intro f c hs decl hmem hgt
    cases hf : f.decls.find? (fun x => declPos x > c.pos) with
    | none =>
      have := List.find?_eq_none.mp hf decl hmem
      simp only [decide_eq_true_eq] at this
      exact absurd hgt this
    | some d0 =>
      have hp := List.find?_some hf
      simp only [decide_eq_true_eq] at hp
      refine ⟨d0, List.mem_of_find?_eq_some hf, ?_, hp,
        find?_after_min f.decls c.pos d0 hs hf decl hmem hgt⟩
      unfold findAssociatedNode
      rw [hf]
      rfl
  · intro f c h
    exact findAssociatedNode_eq_none f c fun decl hd => by
      have := h decl hd
      omega

/-- C5, witness for the amended theorem on `exFile5`: the function at 50
follows the comment at 15, and the associator indeed picks a minimal
following top-level declaration. -/
theorem C5_witness :
    exFile5.decls.Pairwise (fun a b => declPos a ≤ declPos b) ∧
    Decl.funcDecl 50 "Helper" ∈ exFile5.decls ∧
    declPos (Decl.funcDecl 50 "Helper") > exComment5.pos ∧
    (∃ decl0 ∈ exFile5.decls,
      findAssociatedNode exFile5 exComment5 = some (nodeOfDecl decl0) ∧
      declPos decl0 > exComment5.pos ∧
      declPos decl0 ≤ declPos (Decl.funcDecl 50 "Helper")) :=
  ⟨by decide, by decide, by decide,
    C5_top_level_association.2.1 exFile5 exComment5 (by decide)
      (Decl.funcDecl 50 "Helper") (by decide) (by decide)⟩

/-- C6, confirmed.  For every mapper definition a pipeline run produces
(over a well-formed file, whose declared type names are Go identifiers
and hence dot-free), the imports list is duplicate-free and contains
exactly the nonempty package qualifiers (`extractPackage`) of the
methods' source and target type references and of their rules'
`using` functions (the latter vacuously, as no rule carries one). -/
theorem C6_imports_exact (f : File) (hwf : dotFreeTypeNames f)
    (md : MapperDefinition) (hmd : md ∈ (runPipeline f).1) :
    md.Imports.Nodup ∧
      ∀ p, p ∈ md.Imports ↔
        (p ≠ "" ∧ ∃ m ∈ md.Methods,
          p = extractPackage m.SourceType ∨ p = extractPackage m.TargetType ∨
            ∃ r ∈ m.Mappings, p = extractPackage r.Using) := by
  rw [runPipeline_eq] at hmd
  obtain ⟨d, hd, hok⟩ := processMapperDirectives_mem _ md hmd
  obtain ⟨ts, hnode, rfl⟩ := mapperProcess_ok d md hok
  obtain ⟨-, -, decl, hdecl, hnode'⟩ := preprocess_shape f d hd
  rw [hnode] at hnode'
  simp only [Option.some.injEq] at hnode'
  have hts : ts ∈ declTypeSpecs decl := nodeOfDecl_typeSpec decl ts hnode'.symm
  exact mapperProcessTS_imports_spec d ts (hwf decl hdecl ts hts)

/-- C6, witness: the run on `exFile3` produces the definition
`exMapperDef3` with imports exactly `["proto", "dto"]`, duplicate-free. -/
theorem C6_witness :
    dotFreeTypeNames exFile3 ∧
    (exMapperDef3.Imports.Nodup ∧
      ∀ p, p ∈ exMapperDef3.Imports ↔
        (p ≠ "" ∧ ∃ m ∈ exMapperDef3.Methods,
          p = extractPackage m.SourceType ∨ p = extractPackage m.TargetType ∨
            ∃ r ∈ m.Mappings, p = extractPackage r.Using)) :=
  ⟨by unfold dotFreeTypeNames; decide,
    C6_imports_exact exFile3 (by unfold dotFreeTypeNames; decide) exMapperDef3 (by decide)⟩

/-- C7, counterexample.  On the comment `+mapgen:mapping from:UserName
to:Name` the claim requires one directive of kind `mapping` with
attributes `from ↦ UserName`, `to ↦ Name`.  The extractor instead emits a
directive with the hard-coded kind `"mapper"` and the hard-coded
attribute map `{"impl": "user_mapper"}` (no `from` key at all, no ignore
flag — `model.Directive` has no such field). -/
theorem C7_counterexample :
    findDirectivesInComment "// +mapgen:mapping from:UserName to:Name" =
      [{ dirType := "mapper", Metadata := [("impl", "user_mapper")], Node := none }] ∧
    lookupMeta [("impl", "user_mapper")] "from" = none ∧
    ("mapper" : String) ≠ "mapping" := by
  decide

/-- C7, amended.  The extractor emits one directive per `+mapgen:<kind>`
marker, but every one of them is the hard-coded record: kind `"mapper"`,
attributes `{"impl": "user_mapper"}`, no node — whatever the marker's
kind and key:value pairs say, and with no ignore flag recorded. -/
theorem C7_extractor_hardcoded (text : String) (d : Directive)
    (h : d ∈ findDirectivesInComment text) :
    d.dirType = "mapper" ∧ d.Metadata = [("impl", "user_mapper")] ∧ d.Node = none := by
  have hd := findDirectivesInComment_mem text d h
  subst hd
  exact ⟨rfl, rfl, rfl⟩

/-- C7, witness: the comment of the repository README contains one
marker, and the extracted directive is the hard-coded record. -/
theorem C7_witness :
    hardcodedDirective ∈ findDirectivesInComment "// +mapgen:mapper impl:userMapper" ∧
    (hardcodedDirective.dirType = "mapper" ∧
      hardcodedDirective.Metadata = [("impl", "user_mapper")] ∧
      hardcodedDirective.Node = none) :=
  ⟨by decide,
    C7_extractor_hardcoded "// +mapgen:mapper impl:userMapper" hardcodedDirective (by decide)⟩

/-- C8, counterexample.  An unbindable mapping directive (here: no mapper
exists at all, or the only mapper has no methods) is dropped — the
definitions are returned unchanged — but the claimed unbound-directive
warning is never emitted: the anomaly output of the mapping loop is
empty. -/
theorem C8_counterexample :
    processMappings [] [exDirFromTo] = ([], []) ∧
    processMappings [exEmptyMapper] [exDirFromTo] = ([exEmptyMapper], []) := by
  decide

/-- C8, amended.  A mapping directive the binder cannot place is dropped
silently: the definitions are unchanged and no warning or error message
is recorded; more generally the mapping loop never records any anomaly
message and never aborts. -/
theorem C8_unbound_dropped_silently :
    (∀ (defs : List MapperDefinition) (d : Directive),
      bindIndex defs (mappingProcess d) = none →
      processMappings defs [d] = (defs, [])) ∧
    (∀ (defs : List MapperDefinition) (ds : List Directive),
      (processMappings defs ds).2 = []) := by
  constructor
  · intro defs d h
    have h1 : processMappings defs [d] = (applyMapping defs (mappingProcess d), []) := rfl
    rw [h1]
    unfold applyMapping
    rw [h]
  · exact processMappings_diag

/-- C8, witness: the no-mapper-at-all case. -/
theorem C8_witness :
    bindIndex [] (mappingProcess exDirFromTo) = none ∧
    processMappings [] [exDirFromTo] = ([], []) :=
  ⟨by decide, C8_unbound_dropped_silently.1 [] exDirFromTo (by decide)⟩

/-- C9, confirmed.  A mapper directive whose node is a non-interface
`TypeSpec` named `T` is not rejected: the processor returns a definition
with exactly the two synthesized methods `ToDTO : *T → *dto.TDTO` and
`ToEntity : *dto.TDTO → *T`, and appends `"dto"` to the (initially
empty) imports. -/
theorem C9_non_interface_synthesis (d : Directive) (ts : TypeSpec)
    (hnode : d.Node = some (.typeSpec ts)) (hbody : ts.body = .nonInterface) :
    mapperProcess d = .ok (mapperProcessTS d ts) ∧
    (mapperProcessTS d ts).Methods =
      [ { Name := "ToDTO", SourceType := "*" ++ ts.name,
          TargetType := "*dto." ++ ts.name ++ "DTO", Mappings := [] },
        { Name := "ToEntity", SourceType := "*dto." ++ ts.name ++ "DTO",
          TargetType := "*" ++ ts.name, Mappings := [] } ] ∧
    (mapperProcessTS d ts).Imports = ["dto"] := by
  refine ⟨?_, ?_, ?_⟩
  · unfold mapperProcess
    rw [hnode]
  · rw [mapperProcessTS_methods, hbody]
  · rw [mapperProcessTS_imports, hbody]

/-- C9, witness at the struct type `User`. -/
theorem C9_witness :
    exD9.Node = some (.typeSpec exTS9) ∧
    (mapperProcess exD9 = .ok (mapperProcessTS exD9 exTS9) ∧
      (mapperProcessTS exD9 exTS9).Methods =
        [ { Name := "ToDTO", SourceType := "*" ++ exTS9.name,
            TargetType := "*dto." ++ exTS9.name ++ "DTO", Mappings := [] },
          { Name := "ToEntity", SourceType := "*dto." ++ exTS9.name ++ "DTO",
            TargetType := "*" ++ exTS9.name, Mappings := [] } ] ∧
      (mapperProcessTS exD9 exTS9).Imports = ["dto"]) :=
  ⟨rfl, C9_non_interface_synthesis exD9 exTS9 rfl rfl⟩

/-- C10, confirmed.  A directive in a comment with no top-level
declaration starting after it gets no associated node, and is then
silently omitted by `Preprocessor.Process` — no record, no error, no
warning (the function returns only the directive list); a file whose
directive comments all sit after the last declaration yields `[]`. -/
theorem C10_trailing_comments_dropped :
    (∀ (f : File) (c : Comment),
      (∀ decl ∈ f.decls, declPos decl ≤ c.pos) → findAssociatedNode f c = none) ∧
    (∀ f : File,
      (∀ g ∈ f.comments, ∀ c ∈ g, ∀ decl ∈ f.decls, declPos decl ≤ c.pos) →
      preprocess f = []) :=
  ⟨findAssociatedNode_eq_none, preprocess_eq_nil⟩

/-- C10, witness: `exFile10` has a genuine directive comment (second
conjunct) located after its only declaration, and yields no directives. -/
theorem C10_witness :
    (∀ g ∈ exFile10.comments, ∀ c ∈ g, ∀ decl ∈ exFile10.decls, declPos decl ≤ c.pos) ∧
    findDirectivesInComment "// +mapgen:mapper impl:userMapper" ≠ [] ∧
    preprocess exFile10 = [] :=
  ⟨by decide, by decide, C10_trailing_comments_dropped.2 exFile10 (by decide)⟩

end Mapgen
